import Mathlib

/-!
Shallow embedding of the `rookie` chess board-representation layer
(`src/loc/mod.rs`, `src/bitboard/mod.rs`, `src/board/mod.rs`), together with
theorems settling the specification claims about it.

Machine integers (`u8`, `u64`) are modelled as `Nat`; every operation the
sources perform on them stays inside the machine range under the stated
validity bounds (`Loc` indices < 64, bitboard values < 2^64), so no wrap-around
modelling is needed except for the 64-bit complement `!x`, modelled as
`(2^64 - 1) ^^^ x`.
-/

namespace Rookie

/-- `Loc(u8)`: coordinates of a square, little-endian rank-file index. -/
structure Loc where
  idx : Nat
deriving DecidableEq, Repr

/-- `const BOARD_DIM: u8 = 8`. -/
def BOARD_DIM : Nat := 8

/-- `Loc::new(rank, file)`: `if (rank | file) >= 8 { None } else { Some(Loc(rank*8+file)) }`. -/
def Loc.new (rank file : Nat) : Option Loc :=
  if (rank ||| file) ≥ 8 then none
  else some ⟨rank * BOARD_DIM + file⟩

/-- `Loc::from_index(index)`: `if index >= 64 { None } else { Some(Loc(index)) }`. -/
def Loc.from_index (index : Nat) : Option Loc :=
  if index ≥ 64 then none
  else some ⟨index⟩

/-- `Loc::index(&self)`. -/
def Loc.index (l : Loc) : Nat := l.idx

/-- `Loc::rank_file(&self)`: `(self.0 / 8, self.0 % 8)`. -/
def Loc.rank_file (l : Loc) : Nat × Nat := (l.idx / BOARD_DIM, l.idx % BOARD_DIM)

/-- `impl Display for Loc`: writes `('A' as u8 + file) as char` then `1 + rank`
(65 is the ASCII code of the letter A, as in the source cast). -/
def Loc.display (l : Loc) : String :=
  let rank := l.rank_file.1
  let file := l.rank_file.2
  String.singleton (Char.ofNat (65 + file)) ++ Nat.repr (1 + rank)

/-- `Bitboard(u64)`: the 64-bit square-set primitive. -/
structure Bitboard where
  val : Nat
deriving DecidableEq, Repr

/-- The all-ones 64-bit value; u64 complement `!x` is `U64MASK ^^^ x`. -/
def U64MASK : Nat := 2 ^ 64 - 1

/-- u64 bitwise complement, the Rust `!` operator (exact for `x < 2^64`). -/
def not64 (x : Nat) : Nat := U64MASK ^^^ x

/-- `impl BitAnd for Bitboard`. -/
def Bitboard.band (a b : Bitboard) : Bitboard := ⟨a.val &&& b.val⟩

/-- `impl BitOr for Bitboard`. -/
def Bitboard.bor (a b : Bitboard) : Bitboard := ⟨a.val ||| b.val⟩

/-- `impl BitXor for Bitboard`. -/
def Bitboard.bxor (a b : Bitboard) : Bitboard := ⟨a.val ^^^ b.val⟩

/-- `Bitboard::new(indices)`: fold of `acc |= 1 << loc.index()` over the slice,
starting from 0. -/
def Bitboard.new (indices : List Loc) : Bitboard :=
  ⟨indices.foldl (fun acc loc => acc ||| (1 <<< loc.index)) 0⟩

/-- `Bitboard::from_single(loc)`: `1 << loc.index()`. -/
def Bitboard.from_single (loc : Loc) : Bitboard := ⟨1 <<< loc.index⟩

/-- `Bitboard::from_u64(raw)`. -/
def Bitboard.from_u64 (raw : Nat) : Bitboard := ⟨raw⟩

/-- `Bitboard::at(loc)`: `(self.0 & (1 << loc.index())) != 0`. -/
def Bitboard.«at» (bb : Bitboard) (loc : Loc) : Bool :=
  (bb.val &&& (1 <<< loc.index)) != 0

/-- Trailing-zero counter by repeated halving, with a step budget.  With
budget 64 on a u64 value this is exactly `u64::trailing_zeros`: it returns
the index of the least significant set bit, and 64 on input 0. -/
def ctzGo : Nat → Nat → Nat
  | 0, _ => 0
  | fuel + 1, n => if n % 2 = 1 then 0 else ctzGo fuel (n / 2) + 1

/-- `u64::trailing_zeros`. -/
def ctz (n : Nat) : Nat := ctzGo 64 n

/-- `BitboardIter::next`, iterated to exhaustion: a step returns `None` on a
zero value, otherwise takes `ret = trailing_zeros`, clears that bit with
`self.0 &= !(1 << ret)` and yields `Loc::from_index(ret)`.  A `None` from
`from_index` ends the iteration.  Each step clears one set bit and a u64 has
at most 64 set bits, so a budget of 64 steps reaches the zero state. -/
def iterGo : Nat → Nat → List Loc
  | 0, _ => []
  | fuel + 1, n =>
    if n = 0 then []
    else
      match Loc.from_index (ctz n) with
      | none => []
      | some l => l :: iterGo fuel (n &&& not64 (1 <<< ctz n))

/-- `Bitboard::iter()`, collected into the list of all yielded locations. -/
def Bitboard.iterLocs (bb : Bitboard) : List Loc := iterGo 64 bb.val

/-- Specification-side description of a 64-bit value's set squares: the
squares whose bit is set, in ascending index order. -/
def setSquares (n : Nat) : List Loc :=
  ((List.range 64).filter (fun i => n.testBit i)).map Loc.mk

/-- `enum PieceKind`. -/
inductive PieceKind
  | Pawn
  | Knight
  | Bishop
  | Rook
  | Queen
  | King
deriving DecidableEq, Repr

/-- `struct Piece { kind: PieceKind, white: bool }`. -/
structure Piece where
  kind : PieceKind
  white : Bool
deriving DecidableEq, Repr

/-- `struct Board`: two color masks and six kind masks. -/
structure Board where
  black : Bitboard
  white : Bitboard
  pawns : Bitboard
  knights : Bitboard
  bishops : Bitboard
  rooks : Bitboard
  queens : Bitboard
  kings : Bitboard
deriving DecidableEq, Repr

/-- `Board::default()`: every mask zero. -/
def Board.default : Board :=
  ⟨⟨0⟩, ⟨0⟩, ⟨0⟩, ⟨0⟩, ⟨0⟩, ⟨0⟩, ⟨0⟩, ⟨0⟩⟩

/-- `struct BoardBuilder { board: Board }`. -/
structure BoardBuilder where
  board : Board
deriving DecidableEq, Repr

/-- `Board::builder()`: a builder over the default (all-empty) board. -/
def Board.builder : BoardBuilder := ⟨Board.default⟩

/-- `BoardBuilder::add_piece(piece, loc)`: OR the single-square bitboard of
`loc` into the kind mask matching `piece.kind` and into the color mask
matching `piece.white`. -/
def BoardBuilder.add_piece (b : BoardBuilder) (piece : Piece) (loc : Loc) :
    BoardBuilder :=
  let nw := Bitboard.from_single loc
  let brd := b.board
  let brd :=
    match piece.kind with
    | .Pawn => { brd with pawns := brd.pawns.bor nw }
    | .Knight => { brd with knights := brd.knights.bor nw }
    | .Bishop => { brd with bishops := brd.bishops.bor nw }
    | .Rook => { brd with rooks := brd.rooks.bor nw }
    | .Queen => { brd with queens := brd.queens.bor nw }
    | .King => { brd with kings := brd.kings.bor nw }
  if piece.white then { board := { brd with white := brd.white.bor nw } }
  else { board := { brd with black := brd.black.bor nw } }

/-- `BoardBuilder::build()`: yields (a clone of) the accumulated board. -/
def BoardBuilder.build (b : BoardBuilder) : Board := b.board

/-- Outcome of `Board::at`, with the Rust panics made explicit values. -/
inductive AtResult
  | empty
  | piece (p : Piece)
  | panicked (msg : String)
deriving DecidableEq, Repr

/-- The kind scan inside `Board::at`: `find_map` of `at(loc).then_some(kind)`
over the kind masks in the fixed order pawn, knight, bishop, rook, queen,
king. -/
def Board.kindScan (b : Board) (loc : Loc) : Option PieceKind :=
  [(b.pawns, PieceKind.Pawn), (b.knights, PieceKind.Knight),
   (b.bishops, PieceKind.Bishop), (b.rooks, PieceKind.Rook),
   (b.queens, PieceKind.Queen), (b.kings, PieceKind.King)].findSome?
    (fun pk => if pk.1.«at» loc then some pk.2 else none)

/-- `Board::at(loc)`: the color match (panicking when both colors are set),
then the kind scan (panicking when a colored square matches no kind). -/
def Board.«at» (b : Board) (loc : Loc) : AtResult :=
  match b.white.«at» loc, b.black.«at» loc with
  | false, false => .empty
  | true, true => .panicked "Board corruption: two colors"
  | w, _ =>
    match b.kindScan loc with
    | some k => .piece ⟨k, w⟩
    | none => .panicked "Board corruption: color with no piece"

/-- `Board::pawns(white)`: `self.pawns & (if white { self.white } else { self.black })`. -/
def Board.pawnsOf (b : Board) (white : Bool) : Bitboard :=
  b.pawns.band (if white then b.white else b.black)

/-- `Board::knights(white)`. -/
def Board.knightsOf (b : Board) (white : Bool) : Bitboard :=
  b.knights.band (if white then b.white else b.black)

/-- `Board::bishops(white)`. -/
def Board.bishopsOf (b : Board) (white : Bool) : Bitboard :=
  b.bishops.band (if white then b.white else b.black)

/-- `Board::rooks(white)`. -/
def Board.rooksOf (b : Board) (white : Bool) : Bitboard :=
  b.rooks.band (if white then b.white else b.black)

/-- `Board::queens(white)`. -/
def Board.queensOf (b : Board) (white : Bool) : Bitboard :=
  b.queens.band (if white then b.white else b.black)

/-- `Board::kings(white)`. -/
def Board.kingsOf (b : Board) (white : Bool) : Bitboard :=
  b.kings.band (if white then b.white else b.black)

/-- The kind mask a board holds for a given piece kind. -/
def Board.kindMask (b : Board) : PieceKind → Bitboard
  | .Pawn => b.pawns
  | .Knight => b.knights
  | .Bishop => b.bishops
  | .Rook => b.rooks
  | .Queen => b.queens
  | .King => b.kings

/-- The color mask a board holds for a given color flag. -/
def Board.colorMask (b : Board) (white : Bool) : Bitboard :=
  if white then b.white else b.black

/-- The per-kind-per-color query surface, dispatching on the kind to the six
source query functions. -/
def Board.piecesOf (b : Board) (k : PieceKind) (white : Bool) : Bitboard :=
  match k with
  | .Pawn => b.pawnsOf white
  | .Knight => b.knightsOf white
  | .Bishop => b.bishopsOf white
  | .Rook => b.rooksOf white
  | .Queen => b.queensOf white
  | .King => b.kingsOf white

/-- Position of a piece kind in the fixed scan order of `Board::at`. -/
def PieceKind.scanIdx : PieceKind → Nat
  | .Pawn => 0
  | .Knight => 1
  | .Bishop => 2
  | .Rook => 3
  | .Queen => 4
  | .King => 5

/-- The board of the builder doc-test: a white rook on A1 (index 0) and a
black pawn on E5 (rank 4, file 4, index 36). -/
def exampleBoard : Board :=
  ((Board.builder.add_piece ⟨.Rook, true⟩ (Loc.mk 0)).add_piece
    ⟨.Pawn, false⟩ (Loc.mk 36)).build

end Rookie

namespace Rookie

/-- C3: for every rank and file in [0,7], `Loc::from_index (rank*8+file)` and
`Loc::new rank file` both succeed with the same square, and `rank_file` on the
result returns exactly `(rank, file)`. -/
theorem new_from_index_rank_file_roundtrip :
    ∀ rank < 8, ∀ file < 8, ∃ l : Loc,
      Loc.new rank file = some l ∧
      Loc.from_index (rank * 8 + file) = some l ∧
      l.rank_file = (rank, file) := by
  decide

/-- C3 witness at rank 4, file 6. -/
theorem new_from_index_rank_file_roundtrip_witness :
    ∃ l : Loc,
      Loc.new 4 6 = some l ∧
      Loc.from_index (4 * 8 + 6) = some l ∧
      l.rank_file = (4, 6) :=
  new_from_index_rank_file_roundtrip 4 (by decide) 6 (by decide)

/-- C4: for every index in [0,64), the Display rendering of
`Loc::from_index index` is the string whose first character is letter
`'A' + index % 8` (ASCII 65 + index % 8) and whose remainder is the decimal
numeral of `1 + index / 8`. -/
theorem display_algebraic :
    ∀ index < 64,
      (Loc.from_index index).map Loc.display =
        some (String.mk (Char.ofNat (65 + index % 8) :: (Nat.repr (1 + index / 8)).data)) := by
  decide

/-- C4 witness: index 63 renders as the string built from letter H and digit 8,
that is "H8". -/
theorem display_algebraic_witness :
    (Loc.from_index 63).map Loc.display =
      some (String.mk (Char.ofNat (65 + 63 % 8) :: (Nat.repr (1 + 63 / 8)).data)) ∧
    (Loc.from_index 63).map Loc.display = some "H8" :=
  ⟨display_algebraic 63 (by decide), by decide⟩

/-- Every operand is below its bitwise OR. -/
theorem le_or_self_left (a b : Nat) : a ≤ a ||| b :=
  Nat.le_of_testBit (fun i h => by simp [Nat.testBit_or, h])

/-- Every operand is below its bitwise OR (right operand). -/
theorem le_or_self_right (a b : Nat) : b ≤ a ||| b :=
  Nat.le_of_testBit (fun i h => by simp [Nat.testBit_or, h])

/-- The range check `(rank | file) >= 8` of `Loc::new` holds exactly when a
coordinate is out of range. -/
theorem or_ge_eight_iff (rank file : Nat) :
    8 ≤ (rank ||| file) ↔ 8 ≤ rank ∨ 8 ≤ file := by
  constructor
  · intro h
    by_contra hc
    push_neg at hc
    have : rank ||| file < 2 ^ 3 := Nat.or_lt_two_pow hc.1 hc.2
    omega
  · rintro (h | h)
    · exact le_trans h (le_or_self_left rank file)
    · exact le_trans h (le_or_self_right rank file)

/-- C5: over the u8 input domain, `Loc` construction fails exactly on
out-of-range input: `from_index` returns `none` iff the index is ≥ 64, and
`new` returns `none` iff the rank or the file is ≥ 8. -/
theorem construction_fails_iff_out_of_range :
    (∀ index < 256, (Loc.from_index index = none ↔ 64 ≤ index)) ∧
    (∀ rank < 256, ∀ file < 256,
      (Loc.new rank file = none ↔ 8 ≤ rank ∨ 8 ≤ file)) := by
  constructor
  · intro index _
    simp only [Loc.from_index, ge_iff_le]
    by_cases h : 64 ≤ index <;> simp [h]
  · intro rank _ file _
    simp only [Loc.new, ge_iff_le]
    by_cases h : 8 ≤ (rank ||| file)
    · simp [h, (or_ge_eight_iff rank file).mp h]
    · have := (or_ge_eight_iff rank file).not.mp h
      simp [h]
      omega

/-- C5 witness: index 64 and rank 8 are rejected, index 63 and (7, 7) accepted. -/
theorem construction_fails_iff_out_of_range_witness :
    (Loc.from_index 64 = none ↔ 64 ≤ 64) ∧
    (Loc.new 8 0 = none ↔ 8 ≤ 8 ∨ 8 ≤ 0) :=
  ⟨construction_fails_iff_out_of_range.1 64 (by decide),
   construction_fails_iff_out_of_range.2 8 (by decide) 0 (by decide)⟩

/-- `Bitboard::at` is the bit test at the location's index. -/
theorem at_eq_testBit (bb : Bitboard) (l : Loc) :
    bb.«at» l = bb.val.testBit l.idx := by
  simp only [Bitboard.«at», Loc.index, Nat.shiftLeft_eq, one_mul]
  cases h : bb.val.testBit l.idx with
  | false =>
    have hz : bb.val &&& 2 ^ l.idx = 0 := by
      apply Nat.eq_of_testBit_eq
      intro j
      simp only [Nat.testBit_and, Nat.testBit_two_pow, Nat.zero_testBit]
      by_cases hj : l.idx = j
      · subst hj; simp [h]
      · simp [hj]
    simp [hz]
  | true =>
    have hnz : bb.val &&& 2 ^ l.idx ≠ 0 := by
      intro hz
      have := congrArg (fun n => n.testBit l.idx) hz
      simp [Nat.testBit_and, Nat.testBit_two_pow, h] at this
    simp [hnz]

/-- Bit `i` of the accumulator fold of `Bitboard::new` is set exactly when it
was set in the accumulator or some folded location has index `i`. -/
theorem testBit_new_fold (L : List Loc) (i : Nat) :
    ∀ acc : Nat,
      ((L.foldl (fun acc loc => acc ||| (1 <<< loc.index)) acc).testBit i = true ↔
        acc.testBit i = true ∨ ∃ x ∈ L, x.idx = i) := by
  induction L with
  | nil => intro acc; simp
  | cons hd tl ih =>
    intro acc
    simp only [List.foldl_cons]
    rw [ih]
    simp only [Nat.testBit_or, Bool.or_eq_true, Nat.shiftLeft_eq, one_mul,
      Nat.testBit_two_pow, decide_eq_true_eq, List.mem_cons, Loc.index]
    constructor
    · rintro ((h | h) | h)
      · exact Or.inl h
      · exact Or.inr ⟨hd, Or.inl rfl, h⟩
      · obtain ⟨x, hx, hxi⟩ := h
        exact Or.inr ⟨x, Or.inr hx, hxi⟩
    · rintro (h | ⟨x, hx, hxi⟩)
      · exact Or.inl (Or.inl h)
      · rcases hx with rfl | hx
        · exact Or.inl (Or.inr hxi)
        · exact Or.inr ⟨x, hx, hxi⟩

/-- C6: for every list `L` of valid locations and every valid location `l`,
`Bitboard::new(L).at(l)` is true exactly when some element of `L` has the same
index as `l` (so duplicate locations in `L` are idempotent). -/
theorem bitboard_new_at_iff (L : List Loc) (l : Loc)
    (hl : l.idx < 64) (hL : ∀ x ∈ L, x.idx < 64) :
    ((Bitboard.new L).«at» l = true ↔ ∃ x ∈ L, x.idx = l.idx) := by
  rw [at_eq_testBit]
  have h := testBit_new_fold L l.idx 0
  simpa [Bitboard.new] using h

/-- C6 witness: a duplicated A4 (index 3) and F1 (index 5); membership at
index 3 holds. -/
theorem bitboard_new_at_iff_witness :
    ((Bitboard.new [Loc.mk 3, Loc.mk 5, Loc.mk 3]).«at» (Loc.mk 3) = true ↔
      ∃ x ∈ [Loc.mk 3, Loc.mk 5, Loc.mk 3], x.idx = (Loc.mk 3).idx) :=
  bitboard_new_at_iff [Loc.mk 3, Loc.mk 5, Loc.mk 3] (Loc.mk 3)
    (by decide) (by decide)

/-- `ctzGo` finds the least significant set bit when its budget covers the
value: the bit at the returned index is set and all lower bits are clear. -/
theorem ctzGo_spec :
    ∀ fuel n, n ≠ 0 → n < 2 ^ fuel →
      n.testBit (ctzGo fuel n) = true ∧
        ∀ i < ctzGo fuel n, n.testBit i = false := by
  intro fuel
  induction fuel with
  | zero => intro n hn hlt; simp at hlt; omega
  | succ fuel ih =>
    intro n hn hlt
    by_cases h2 : n % 2 = 1
    · refine ⟨?_, ?_⟩
      · simp [ctzGo, h2]
      · intro i hi
        simp [ctzGo, h2] at hi
    · have hmod : n % 2 = 0 := by omega
      have hhalf : n / 2 ≠ 0 := by omega
      have hhlt : n / 2 < 2 ^ fuel := by
        have hp : 2 ^ (fuel + 1) = 2 * 2 ^ fuel := by ring
        omega
      obtain ⟨ht, hmin⟩ := ih (n / 2) hhalf hhlt
      have hc : ctzGo (fuel + 1) n = ctzGo fuel (n / 2) + 1 := by
        simp [ctzGo, h2]
      refine ⟨?_, ?_⟩
      · rw [hc, Nat.testBit_add_one]
        exact ht
      · intro i hi
        rw [hc] at hi
        match i with
        | 0 => simp [hmod]
        | j + 1 =>
          rw [Nat.testBit_add_one]
          exact hmin j (by omega)

/-- `ctz` on a nonzero u64 value returns the index of the least significant
set bit, which is below 64. -/
theorem ctz_spec (n : Nat) (hn : n ≠ 0) (hlt : n < 2 ^ 64) :
    n.testBit (ctz n) = true ∧ (∀ i < ctz n, n.testBit i = false) ∧
      ctz n < 64 := by
  obtain ⟨ht, hmin⟩ := ctzGo_spec 64 n hn hlt
  refine ⟨ht, hmin, ?_⟩
  by_contra hge
  push_neg at hge
  have : 2 ^ 64 ≤ n := le_trans (Nat.pow_le_pow_right (by norm_num) hge)
    (Nat.testBit_implies_ge ht)
  omega

/-- Clearing bit `t` with the u64 mask `!(1 << t)` clears exactly bit `t`. -/
theorem testBit_clearLow (n t : Nat) (hn : n < 2 ^ 64) (ht : t < 64) (i : Nat) :
    (n &&& not64 (1 <<< t)).testBit i = (n.testBit i && ! decide (i = t)) := by
  simp only [Nat.testBit_and, not64, U64MASK, Nat.testBit_xor,
    Nat.testBit_two_pow_sub_one, Nat.shiftLeft_eq, one_mul, Nat.testBit_two_pow]
  by_cases hi : i < 64
  · by_cases hit : i = t
    · subst hit
      simp [hi]
    · have : ¬ t = i := fun h => hit h.symm
      simp [hi, hit, this]
  · have hni : n.testBit i = false :=
      Nat.testBit_lt_two_pow
        (lt_of_lt_of_le hn (Nat.pow_le_pow_right (by norm_num) (by omega)))
    have : ¬ t = i := by omega
    simp [hni]

/-- Removing the least set bit `t` from the range filter splits off `t` as the
head: generic step lemma over `List.range`. -/
theorem filter_range_eq_cons (p q : Nat → Bool) (t : Nat)
    (hq : ∀ i, q i = (p i && ! decide (i = t)))
    (hlow : ∀ i < t, p i = false) (hpt : p t = true) :
    ∀ n, t < n → (List.range n).filter p = t :: (List.range n).filter q := by
  intro n
  induction n with
  | zero => intro h; omega
  | succ n ih =>
    intro hlt
    rw [List.range_succ, List.filter_append, List.filter_append]
    by_cases htn : t = n
    · subst htn
      have h1 : (List.range t).filter p = [] := by
        rw [List.filter_eq_nil_iff]
        intro a ha
        simp only [List.mem_range] at ha
        simp [hlow a ha]
      have h2 : (List.range t).filter q = [] := by
        rw [List.filter_eq_nil_iff]
        intro a ha
        simp only [List.mem_range] at ha
        simp [hq, hlow a ha]
      have h3 : [t].filter p = [t] := by simp [hpt]
      have h4 : [t].filter q = [] := by simp [hq]
      rw [h1, h2, h3, h4]
      simp
    · have ih2 := ih (by omega)
      rw [ih2]
      have : [n].filter p = [n].filter q := by
        have hqn : q n = p n := by
          rw [hq]
          have : ¬ n = t := fun h => htn h.symm
          simp [this]
        simp [List.filter, hqn]
      rw [this]
      simp

/-- One `next` step of the iterator peels the least significant set square off
the specification list. -/
theorem setSquares_step (n : Nat) (hn : n ≠ 0) (hlt : n < 2 ^ 64) :
    setSquares n = Loc.mk (ctz n) :: setSquares (n &&& not64 (1 <<< ctz n)) := by
  obtain ⟨ht, hmin, hct⟩ := ctz_spec n hn hlt
  have hsplit := filter_range_eq_cons (fun i => n.testBit i)
    (fun i => (n &&& not64 (1 <<< ctz n)).testBit i) (ctz n)
    (fun i => testBit_clearLow n (ctz n) hlt hct i)
    hmin ht 64 hct
  simp only [setSquares, hsplit, List.map_cons]

/-- When the step budget covers the number of set bits, the iterator yields
exactly the specification list. -/
theorem iterGo_eq_setSquares :
    ∀ fuel n, n < 2 ^ 64 → (setSquares n).length ≤ fuel →
      iterGo fuel n = setSquares n := by
  intro fuel
  induction fuel with
  | zero =>
    intro n _ hlen
    have h0 : setSquares n = [] := List.eq_nil_of_length_eq_zero (by omega)
    rw [h0]
    rfl
  | succ fuel ih =>
    intro n hlt hlen
    by_cases hn : n = 0
    · subst hn
      have h0 : setSquares 0 = [] := by simp [setSquares]
      rw [h0]
      simp [iterGo]
    · obtain ⟨_, _, hct⟩ := ctz_spec n hn hlt
      have hstep := setSquares_step n hn hlt
      have hfi : Loc.from_index (ctz n) = some (Loc.mk (ctz n)) := by
        simp only [Loc.from_index, ge_iff_le]
        rw [if_neg (by omega)]
      have hgo : iterGo (fuel + 1) n =
          Loc.mk (ctz n) :: iterGo fuel (n &&& not64 (1 <<< ctz n)) := by
        simp [iterGo, hn, hfi]
      have hlen2 : (setSquares (n &&& not64 (1 <<< ctz n))).length ≤ fuel := by
        have := congrArg List.length hstep
        simp only [List.length_cons] at this
        omega
      have hlt2 : (n &&& not64 (1 <<< ctz n)) < 2 ^ 64 :=
        lt_of_le_of_lt Nat.and_le_left hlt
      rw [hgo, ih _ hlt2 hlen2, ← hstep]

/-- C7: for every u64-ranged bitboard, iterating yields exactly one square per
set bit of the value, in ascending index order — the yielded list is exactly
`setSquares` of the value (so a zero value yields nothing), and the yielded
indices are strictly increasing. -/
theorem iter_yields_ascending_set_bits (bb : Bitboard) (h : bb.val < 2 ^ 64) :
    bb.iterLocs = setSquares bb.val ∧
      bb.iterLocs.Pairwise (fun a b => a.idx < b.idx) := by
  have heq : bb.iterLocs = setSquares bb.val := by
    apply iterGo_eq_setSquares 64 bb.val h
    calc (setSquares bb.val).length
        = ((List.range 64).filter (fun i => bb.val.testBit i)).length := by
          simp [setSquares]
      _ ≤ (List.range 64).length := List.length_filter_le _ _
      _ = 64 := List.length_range 64
  refine ⟨heq, ?_⟩
  rw [heq]
  unfold setSquares
  exact ((List.sorted_lt_range 64).sublist (List.filter_sublist _)).map
    Loc.mk (fun a b hab => hab)

/-- C7 witness: the bitboard with value 40 (bits 3 and 5) yields exactly
the squares with indices 3 and 5, in that order; a zero value yields
nothing. -/
theorem iter_yields_ascending_set_bits_witness :
    ((Bitboard.mk 40).iterLocs = setSquares 40 ∧
      (Bitboard.mk 40).iterLocs.Pairwise (fun a b => a.idx < b.idx)) ∧
    setSquares 40 = [Loc.mk 3, Loc.mk 5] ∧
    setSquares 0 = [] :=
  ⟨iter_yields_ascending_set_bits (Bitboard.mk 40) (by norm_num),
   by decide, by decide⟩

/-- C1 (code bug): on a board whose white and black masks both hold square 0,
`Board::at` panics with "Board corruption: two colors" instead of returning a
recoverable error value, and on a board where a colored square matches no kind
mask it panics with "Board corruption: color with no piece"; the two messages
are distinct but both are panics, not error values. -/
theorem at_panics_on_corruption :
    (Board.«at» { Board.default with white := ⟨1⟩, black := ⟨1⟩ } (Loc.mk 0) =
      AtResult.panicked "Board corruption: two colors") ∧
    (Board.«at» { Board.default with white := ⟨1⟩ } (Loc.mk 0) =
      AtResult.panicked "Board corruption: color with no piece") ∧
    "Board corruption: two colors" ≠ "Board corruption: color with no piece" := by
  refine ⟨rfl, rfl, ?_⟩
  decide

/-- C2: on the board with a white rook on A1 and a black pawn on E5, `at`
reports the rook at A1, the pawn at E5 and emptiness at F2 (index 13), and
the white-rooks query yields the bitboard with value 1, whose only set square
is index 0 (A1). -/
theorem example_board_queries :
    Loc.new 0 0 = some (Loc.mk 0) ∧
    Loc.new 4 4 = some (Loc.mk 36) ∧
    Loc.new 1 5 = some (Loc.mk 13) ∧
    exampleBoard.«at» (Loc.mk 0) = AtResult.piece ⟨.Rook, true⟩ ∧
    exampleBoard.«at» (Loc.mk 36) = AtResult.piece ⟨.Pawn, false⟩ ∧
    exampleBoard.«at» (Loc.mk 13) = AtResult.empty ∧
    exampleBoard.rooksOf true = Bitboard.mk 1 ∧
    ∀ i < 64, ((exampleBoard.rooksOf true).«at» (Loc.mk i) = decide (i = 0)) := by
  decide

/-- C8: every per-kind-per-color query is the intersection of the kind mask
with the chosen color mask: a square is in the result exactly when it is in
both masks. -/
theorem pieces_query_is_intersection (b : Board) (k : PieceKind) (white : Bool)
    (l : Loc) :
    (b.piecesOf k white).«at» l =
      ((b.kindMask k).«at» l && (b.colorMask white).«at» l) := by
  cases white <;> cases k <;>
    simp [Board.piecesOf, Board.pawnsOf, Board.knightsOf, Board.bishopsOf,
      Board.rooksOf, Board.queensOf, Board.kingsOf, Board.kindMask,
      Board.colorMask, Bitboard.band, at_eq_testBit, Nat.testBit_and]

/-- The kind scan finds a kind as soon as any kind mask holds the square, and
the kind found is the first one in scan order. -/
theorem kindScan_first_of_set (b : Board) (l : Loc) (k0 : PieceKind)
    (h0 : (b.kindMask k0).«at» l = true) :
    ∃ k, b.kindScan l = some k ∧ (b.kindMask k).«at» l = true ∧
      ∀ k3, k3.scanIdx < k.scanIdx → (b.kindMask k3).«at» l = false := by
  by_cases hp : b.pawns.«at» l = true
  · refine ⟨.Pawn, by simp [Board.kindScan, hp], hp, ?_⟩
    intro k3 hk
    simp [PieceKind.scanIdx] at hk
  · by_cases hn : b.knights.«at» l = true
    · refine ⟨.Knight, by simp [Board.kindScan, hp, hn], hn, ?_⟩
      intro k3 hk
      cases k3 <;> simp_all [PieceKind.scanIdx, Board.kindMask]
    · by_cases hb : b.bishops.«at» l = true
      · refine ⟨.Bishop, by simp [Board.kindScan, hp, hn, hb], hb, ?_⟩
        intro k3 hk
        cases k3 <;> simp_all [PieceKind.scanIdx, Board.kindMask]
      · by_cases hr : b.rooks.«at» l = true
        · refine ⟨.Rook, by simp [Board.kindScan, hp, hn, hb, hr], hr, ?_⟩
          intro k3 hk
          cases k3 <;> simp_all [PieceKind.scanIdx, Board.kindMask]
        · by_cases hq : b.queens.«at» l = true
          · refine ⟨.Queen, by simp [Board.kindScan, hp, hn, hb, hr, hq], hq, ?_⟩
            intro k3 hk
            cases k3 <;> simp_all [PieceKind.scanIdx, Board.kindMask]
          · by_cases hk0 : b.kings.«at» l = true
            · refine ⟨.King, by simp [Board.kindScan, hp, hn, hb, hr, hq, hk0],
                hk0, ?_⟩
              intro k3 hk
              cases k3 <;> simp_all [PieceKind.scanIdx, Board.kindMask]
            · exfalso
              cases k0 <;> simp_all [Board.kindMask]

/-- C10: on a square with exactly one color bit but several kind bits,
`Board::at` reports no corruption: it returns the piece whose kind is the
first set kind in the fixed scan order pawn, knight, bishop, rook, queen,
king, with the set color. -/
theorem at_returns_first_kind_in_scan_order (b : Board) (l : Loc)
    (hcolor : b.white.«at» l ≠ b.black.«at» l)
    (k1 k2 : PieceKind) (hne : k1 ≠ k2)
    (h1 : (b.kindMask k1).«at» l = true) (h2 : (b.kindMask k2).«at» l = true) :
    ∃ k : PieceKind,
      b.«at» l = AtResult.piece ⟨k, b.white.«at» l⟩ ∧
      (b.kindMask k).«at» l = true ∧
      ∀ k3 : PieceKind, k3.scanIdx < k.scanIdx →
        (b.kindMask k3).«at» l = false := by
  obtain ⟨k, hscan, hkt, hmin⟩ := kindScan_first_of_set b l k1 h1
  refine ⟨k, ?_, hkt, hmin⟩
  cases hw : b.white.«at» l <;> cases hb : b.black.«at» l
  · rw [hw, hb] at hcolor
    exact absurd rfl hcolor
  · simp [Board.«at», hw, hb, hscan]
  · simp [Board.«at», hw, hb, hscan]
  · rw [hw, hb] at hcolor
    exact absurd rfl hcolor

/-- C10 witness: white square 0 holding both a pawn bit and a rook bit is
reported as a white pawn — the first kind in scan order. -/
theorem at_returns_first_kind_in_scan_order_witness :
    ∃ k : PieceKind,
      Board.«at»
          { Board.default with white := ⟨1⟩, pawns := ⟨1⟩, rooks := ⟨1⟩ }
          (Loc.mk 0) =
        AtResult.piece
          ⟨k, Bitboard.«at»
            ({ Board.default with
              white := ⟨1⟩, pawns := ⟨1⟩, rooks := ⟨1⟩ } : Board).white
            (Loc.mk 0)⟩ ∧
      (Board.kindMask
          { Board.default with white := ⟨1⟩, pawns := ⟨1⟩, rooks := ⟨1⟩ }
          k).«at» (Loc.mk 0) = true ∧
      ∀ k3 : PieceKind, k3.scanIdx < k.scanIdx →
        (Board.kindMask
            { Board.default with white := ⟨1⟩, pawns := ⟨1⟩, rooks := ⟨1⟩ }
            k3).«at» (Loc.mk 0) = false :=
  at_returns_first_kind_in_scan_order
    { Board.default with white := ⟨1⟩, pawns := ⟨1⟩, rooks := ⟨1⟩ }
    (Loc.mk 0) (by decide) PieceKind.Pawn PieceKind.Rook (by decide)
    (by decide) (by decide)

end Rookie
